import Mathlib

/-!
Verification of the flattened newtype-variant-enum XML codec
(`src/newtype_variant_enum.rs`).

The embedding models the program at the structural level that the serde /
quick-xml pipeline presents to the hand-written code:

* `f32` payloads are modelled as exact rational numbers (`Rat`); the value
  codec (`str::parse::<f32>` / `Display for f32`) is modelled by an exact
  decimal parser/printer over that model.  Every finite `f32` is a dyadic
  rational, hence has a finite decimal expansion; `FiniteF32` below is the
  corresponding predicate on the model.
* An XML child value, as seen by `ControlVisitor::visit_map`, is the
  untagged `TextOrMap` enum: either bare text or the `{"$text": ...}`
  wrapper map.
* An element's children are a list of key/value entries in document order;
  file I/O and the XML tokenizer are external collaborators and are not
  part of the core (spec §1, §6).
-/

/-! ## Decimal value codec (model of the Rust f32 value codec) -/

/-- The decimal digit character for `d`; used for `d < 10` only. -/
def decChar (d : Nat) : Char :=
  match d with
  | 0 => '0' | 1 => '1' | 2 => '2' | 3 => '3' | 4 => '4'
  | 5 => '5' | 6 => '6' | 7 => '7' | 8 => '8' | _ => '9'

/-- Numeric value of a decimal digit character. -/
def decVal (c : Char) : Nat := c.toNat - 48

/-- Big-endian decimal digits of a natural number. -/
def natToChars (n : Nat) : List Char :=
  if _h : n < 10 then [decChar n]
  else natToChars (n / 10) ++ [decChar (n % 10)]
termination_by n
decreasing_by exact Nat.div_lt_self (by omega) (by omega)

/-- Value of a big-endian decimal digit list. -/
def charsNatVal (l : List Char) : Nat := l.foldl (fun a c => 10 * a + decVal c) 0

/-- Parse a non-empty all-digit character list as a natural number. -/
def parseNatChars (l : List Char) : Option Nat :=
  if l.isEmpty then none
  else if l.all Char.isDigit then some (charsNatVal l) else none

/-- Split a character list at the first character satisfying `p`,
returning the prefix and (when found) the remainder after the split. -/
def splitAtCh (p : Char → Bool) : List Char → List Char × Option (List Char)
  | [] => ([], none)
  | c :: cs =>
      if p c then ([], some cs)
      else (c :: (splitAtCh p cs).1, (splitAtCh p cs).2)

/-- Strip an optional leading sign, returning whether it was `-`. -/
def stripSign : List Char → Bool × List Char
  | [] => (false, [])
  | c :: r =>
      if c = '-' then (true, r)
      else if c = '+' then (false, r)
      else (false, c :: r)

/-- Parse the mantissa part (digits with an optional decimal point) of a
float literal, exactly, as a rational. -/
def parseMantissa (l : List Char) : Option Rat :=
  match splitAtCh (· == '.') l with
  | (ip, none) => (parseNatChars ip).map (fun n => (n : Rat))
  | (ip, some fp) =>
      if ip.isEmpty && fp.isEmpty then none
      else if ip.all Char.isDigit && fp.all Char.isDigit then
        some ((charsNatVal ip : Rat) + (charsNatVal fp : Rat) / (10 : Rat) ^ fp.length)
      else none

/-- Parse an optionally signed exponent. -/
def parseExpChars (l : List Char) : Option Int :=
  match l with
  | '-' :: r => (parseNatChars r).map (fun n => -(n : Int))
  | '+' :: r => (parseNatChars r).map (fun n => (n : Int))
  | r => (parseNatChars r).map (fun n => (n : Int))

/-- Negate when the stripped sign was `-`. -/
def applySign (b : Bool) (m : Rat) : Rat := if b then -m else m

/-- The exponent marker characters `e` and `E`. -/
def isExpMark (c : Char) : Bool := c == 'e' || c == 'E'

/-- Exact-rational model of `str::parse::<f32>` on character lists: the
standard float-literal grammar `sign? digits [. digits] [(e|E) sign? digits]`
(non-finite forms such as `inf`/`NaN` are outside the modelled finite scope). -/
def parseRatChars (l : List Char) : Option Rat :=
  match parseMantissa (splitAtCh isExpMark (stripSign l).2).1,
        (splitAtCh isExpMark (stripSign l).2).2 with
  | some m, none => some (applySign (stripSign l).1 m)
  | some m, some ec =>
      (parseExpChars ec).map (fun e => applySign (stripSign l).1 m * (10 : Rat) ^ e)
  | none, _ => none

/-- Model of `str::parse::<f32>`. -/
def parseF32 (s : String) : Option Rat := parseRatChars s.data

/-- Decimal rendering of the non-negative fraction `a / d` (exact whenever
`d ∣ 10 ^ d`, which holds for every denominator of a finite float). -/
def formatAbsChars (a d : Nat) : List Char :=
  if d = 1 then natToChars a
  else
    let ds := natToChars (a * (10 ^ d / d))
    let P := List.replicate (d + 1 - ds.length) '0' ++ ds
    P.take (P.length - d) ++ '.' :: P.drop (P.length - d)

/-- Exact-rational model of `Display for f32` (decimal, never scientific
notation, exact on the finite-float model). -/
def formatRatChars (q : Rat) : List Char :=
  if q.num < 0 then '-' :: formatAbsChars q.num.natAbs q.den
  else formatAbsChars q.num.natAbs q.den

/-- Model of `format!` of an `f32` value. -/
def formatF32 (q : Rat) : String := ⟨formatRatChars q⟩

/-- The rationals standing for finite `f32` values: their denominator
divides a power of ten (every finite float is a dyadic rational, and every
dyadic rational satisfies this). -/
def FiniteF32 (q : Rat) : Prop := ∃ j, q.den ∣ 10 ^ j

/-! ## Data model (src/newtype_variant_enum.rs) -/

/-- `pub struct Sale(pub f32);` -/
structure Sale where
  val : Rat
deriving DecidableEq, Repr

/-- `pub enum Currency { Dollars(f32), Euros(f32) }` -/
inductive Currency where
  | Dollars (v : Rat)
  | Euros (v : Rat)
deriving DecidableEq, Repr

/-- `pub struct Product { name, price: Currency (flattened), sale: Option<Sale> }` -/
structure Product where
  name : String
  price : Currency
  sale : Option Sale
deriving DecidableEq, Repr

/-- The untagged helper enum: a child value is either bare text or the
`{"$text": ...}` wrapper map (`enum TextOrMap { Text(String), Map { text } }`). -/
inductive TextOrMap where
  | Text (s : String)
  | Map (text : String)
deriving DecidableEq, Repr

/-- The decode errors the hand-written code produces via `de::Error::custom`.
`invalidNumber` models the float `ParseFloatError` raised in `visit_map`;
`unexpectedKey` models `"unexpected key {key}"`; `missingVariantTag` models
`"expected <Euros> or <Dollars> element"`; `invalidSaleNumber` models
`"unexpected nonempty string: ..."` from `parse_sale_or_empty_string`. -/
inductive DecodeError where
  | invalidNumber (text : String)
  | unexpectedKey (key : String)
  | missingVariantTag
  | invalidSaleNumber (text : String)
deriving DecidableEq, Repr

/-- `let s = match tom { TextOrMap::Text(t) => t, TextOrMap::Map { text } => text };` -/
def tomText : TextOrMap → String
  | .Text t => t
  | .Map text => text

/-- `ControlVisitor::visit_map`: the `while let` loop over the entries; its
body unconditionally `return`s, so only the head entry is ever examined,
and an empty map falls through to the no-element error.  The float parse of
the entry's text happens before the key is compared. -/
def visit_map : List (String × TextOrMap) → Except DecodeError Currency
  | [] => .error .missingVariantTag
  | (key, tom) :: _ =>
      let s := tomText tom
      match parseF32 s with
      | none => .error (.invalidNumber s)
      | some f =>
          if key = "Euros" then .ok (.Euros f)
          else if key = "Dollars" then .ok (.Dollars f)
          else .error (.unexpectedKey key)

/-- `deserialize_flattened`: drives `ControlVisitor` over the element's
remaining children (the map view serde's `flatten` passes to it). -/
def deserialize_flattened (children : List (String × TextOrMap)) :
    Except DecodeError Currency :=
  visit_map children

/-- `parse_sale_or_empty_string`: empty raw text is `None`; otherwise the
text must parse as `f32`. -/
def parse_sale_or_empty_string (s : String) : Except DecodeError (Option Sale) :=
  if s.data.isEmpty then .ok none
  else
    match parseF32 s with
    | some f => .ok (some (Sale.mk f))
    | none => .error (.invalidSaleNumber s)

/-- `currencyTag`: the wire tag serde's derived `Serialize` writes for each
newtype variant (the variant's own name). -/
def currencyTag : Currency → String
  | .Dollars _ => "Dollars"
  | .Euros _ => "Euros"

/-- The numeric payload of the active variant. -/
def currencyValue : Currency → Rat
  | .Dollars v => v
  | .Euros v => v

/-- The single child entry the derived `Serialize` for `Currency` emits:
variant tag as the element name, formatted payload as bare text. -/
def serializeCurrency (c : Currency) : String × TextOrMap :=
  (currencyTag c, TextOrMap.Text (formatF32 (currencyValue c)))

/-- Structural view of the XML document for one `Product`: the `Name` text,
the flattened union's children (in document order), and the raw `Sale` text
(absent `sale` serializes as empty text). -/
structure XmlDoc where
  name : String
  unionChildren : List (String × TextOrMap)
  saleText : String
deriving Repr

/-- Encoder (`to_xml_file` minus the external file/XML-writer collaborators):
name, then the flattened currency child, then the sale text. -/
def to_xml_doc (p : Product) : XmlDoc :=
  { name := p.name
    unionChildren := [serializeCurrency p.price]
    saleText :=
      match p.sale with
      | none => ""
      | some s => formatF32 s.val }

/-- Decoder (`from_xml_file` minus the external file/XML-reader
collaborators): the derived `Deserialize` for `Product` reads `Name`, hands
the remaining children to `deserialize_flattened`, and the `Sale` text to
`parse_sale_or_empty_string`; any field error fails the whole record. -/
def from_xml_doc (d : XmlDoc) : Except DecodeError Product :=
  match deserialize_flattened d.unionChildren with
  | .error e => .error e
  | .ok price =>
      match parse_sale_or_empty_string d.saleText with
      | .error e => .error e
      | .ok sale => .ok { name := d.name, price := price, sale := sale }

/-! ## Codec lemmas -/

theorem decVal_decChar {d : Nat} (h : d < 10) : decVal (decChar d) = d := by
  interval_cases d <;> decide

theorem isDigit_decChar {d : Nat} (h : d < 10) : (decChar d).isDigit = true := by
  interval_cases d <;> decide

theorem charsNatVal_from (l : List Char) :
    ∀ a : Nat, l.foldl (fun a c => 10 * a + decVal c) a =
      a * 10 ^ l.length + charsNatVal l := by
  induction l with
  | nil => intro a; simp [charsNatVal]
  | cons c cs ih =>
      intro a
      simp only [List.foldl_cons, charsNatVal, List.length_cons]
      rw [ih (10 * a + decVal c), ih (10 * 0 + decVal c)]
      ring

theorem charsNatVal_append (xs ys : List Char) :
    charsNatVal (xs ++ ys) = charsNatVal xs * 10 ^ ys.length + charsNatVal ys := by
  unfold charsNatVal
  rw [List.foldl_append]
  exact charsNatVal_from ys _

theorem charsNatVal_replicate_zero (m : Nat) (l : List Char) :
    charsNatVal (List.replicate m '0' ++ l) = charsNatVal l := by
  induction m with
  | zero => simp
  | succ k ih =>
      rw [List.replicate_succ, List.cons_append]
      show List.foldl _ _ _ = _
      simp only [List.foldl_cons]
      exact ih

theorem natToChars_spec (n : Nat) :
    natToChars n ≠ [] ∧ (∀ c ∈ natToChars n, c.isDigit = true) ∧
      charsNatVal (natToChars n) = n := by
  induction n using Nat.strong_induction_on with
  | _ n ih =>
      rw [natToChars]
      by_cases h : n < 10
      · simp only [h, dif_pos]
        refine ⟨by simp, ?_, ?_⟩
        · intro c hc
          simp only [List.mem_singleton] at hc
          subst hc
          exact isDigit_decChar h
        · show charsNatVal [decChar n] = n
          unfold charsNatVal
          simp only [List.foldl_cons, List.foldl_nil]
          rw [decVal_decChar h]
          omega
      · rw [dif_neg h]
        have hlt : n / 10 < n := Nat.div_lt_self (by omega) (by omega)
        obtain ⟨hne, hdig, hval⟩ := ih (n / 10) hlt
        refine ⟨by simp, ?_, ?_⟩
        · intro c hc
          rcases List.mem_append.mp hc with hc | hc
          · exact hdig c hc
          · simp only [List.mem_singleton] at hc
            subst hc
            exact isDigit_decChar (Nat.mod_lt _ (by omega))
        · rw [charsNatVal_append, hval]
          show n / 10 * 10 ^ 1 + charsNatVal [decChar (n % 10)] = n
          unfold charsNatVal
          simp only [List.foldl_cons, List.foldl_nil]
          rw [decVal_decChar (Nat.mod_lt _ (by omega))]
          omega

theorem parseNatChars_natToChars (n : Nat) :
    parseNatChars (natToChars n) = some n := by
  obtain ⟨hne, hdig, hval⟩ := natToChars_spec n
  unfold parseNatChars
  rw [if_neg (by simpa using hne)]
  rw [if_pos (List.all_eq_true.mpr hdig), hval]

theorem splitAtCh_not_found (p : Char → Bool) (l : List Char)
    (h : ∀ c ∈ l, p c = false) : splitAtCh p l = (l, none) := by
  induction l with
  | nil => rfl
  | cons c cs ih =>
      unfold splitAtCh
      rw [if_neg (by simp [h c (by simp)])]
      rw [ih (fun c hc => h c (List.mem_cons_of_mem _ hc))]

theorem splitAtCh_found (p : Char → Bool) (xs ys : List Char) (c : Char)
    (hx : ∀ a ∈ xs, p a = false) (hc : p c = true) :
    splitAtCh p (xs ++ c :: ys) = (xs, some ys) := by
  induction xs with
  | nil =>
      unfold splitAtCh
      simp [hc]
  | cons x xr ih =>
      unfold splitAtCh
      rw [List.cons_append]
      simp only
      rw [if_neg (by simp [hx x (by simp)])]
      rw [ih (fun a ha => hx a (List.mem_cons_of_mem _ ha))]

theorem isDigit_not_dot {c : Char} (h : c.isDigit = true) : (c == '.') = false := by
  cases hq : (c == '.') with
  | false => rfl
  | true =>
      have hc : c = '.' := eq_of_beq hq
      subst hc
      exact absurd h (by decide)

theorem isDigit_not_expMark {c : Char} (h : c.isDigit = true) : isExpMark c = false := by
  unfold isExpMark
  cases hq : (c == 'e') with
  | true =>
      have hc : c = 'e' := eq_of_beq hq
      subst hc
      exact absurd h (by decide)
  | false =>
      cases hq2 : (c == 'E') with
      | true =>
          have hc : c = 'E' := eq_of_beq hq2
          subst hc
          exact absurd h (by decide)
      | false => rfl

theorem isDigit_not_minus {c : Char} (h : c.isDigit = true) : c ≠ '-' := by
  intro hc; subst hc; exact absurd h (by decide)

theorem isDigit_not_plus {c : Char} (h : c.isDigit = true) : c ≠ '+' := by
  intro hc; subst hc; exact absurd h (by decide)

theorem formatAbs_mem (a d : Nat) :
    ∀ c ∈ formatAbsChars a d, c.isDigit = true ∨ c = '.' := by
  unfold formatAbsChars
  by_cases hd : d = 1
  · rw [if_pos hd]
    intro c hc
    exact Or.inl ((natToChars_spec a).2.1 c hc)
  · rw [if_neg hd]
    intro c hc
    simp only at hc
    set ds := natToChars (a * (10 ^ d / d)) with hds
    set P := List.replicate (d + 1 - ds.length) '0' ++ ds with hP
    have hPdig : ∀ c ∈ P, c.isDigit = true := by
      intro c hc
      rcases List.mem_append.mp hc with hc | hc
      · rw [List.eq_of_mem_replicate hc]; decide
      · exact (natToChars_spec _).2.1 c hc
    rcases List.mem_append.mp hc with hc | hc
    · exact Or.inl (hPdig c (List.take_subset _ _ hc))
    · rcases List.mem_cons.mp hc with hc | hc
      · exact Or.inr hc
      · exact Or.inl (hPdig c (List.drop_subset _ _ hc))

theorem formatAbs_head (a d : Nat) :
    ∃ c r, formatAbsChars a d = c :: r ∧ c.isDigit = true := by
  unfold formatAbsChars
  by_cases hd : d = 1
  · rw [if_pos hd]
    obtain ⟨c, r, hcr⟩ := List.exists_cons_of_ne_nil (natToChars_spec a).1
    exact ⟨c, r, hcr, (natToChars_spec a).2.1 c (hcr ▸ List.mem_cons_self c r)⟩
  · rw [if_neg hd]
    simp only
    set ds := natToChars (a * (10 ^ d / d)) with hds
    set P := List.replicate (d + 1 - ds.length) '0' ++ ds with hP
    have hds_ne : ds ≠ [] := (natToChars_spec _).1
    have hlen : d + 1 ≤ P.length := by
      rw [hP, List.length_append, List.length_replicate]
      have : 1 ≤ ds.length := List.length_pos.mpr hds_ne
      omega
    have hI_ne : P.take (P.length - d) ≠ [] := by
      rw [← List.length_pos, List.length_take]
      omega
    obtain ⟨c, r, hcr⟩ := List.exists_cons_of_ne_nil hI_ne
    have hcP : c ∈ P := List.take_subset _ _ (hcr ▸ List.mem_cons_self c r)
    have hcd : c.isDigit = true := by
      rcases List.mem_append.mp hcP with hc | hc
      · rw [List.eq_of_mem_replicate hc]; decide
      · exact (natToChars_spec _).2.1 c hc
    exact ⟨c, r ++ '.' :: P.drop (P.length - d), by rw [hcr, List.cons_append], hcd⟩

theorem parseMantissa_formatAbs (a d : Nat) (hd0 : 0 < d) (hdvd : d ∣ 10 ^ d) :
    parseMantissa (formatAbsChars a d) = some ((a : Rat) / (d : Rat)) := by
  by_cases hd : d = 1
  · subst hd
    unfold formatAbsChars
    rw [if_pos rfl]
    unfold parseMantissa
    rw [splitAtCh_not_found _ _
      (fun c hc => isDigit_not_dot ((natToChars_spec a).2.1 c hc))]
    simp [parseNatChars_natToChars a]
  · have hform : formatAbsChars a d =
        (List.replicate (d + 1 - (natToChars (a * (10 ^ d / d))).length) '0' ++
          natToChars (a * (10 ^ d / d))).take
            ((List.replicate (d + 1 - (natToChars (a * (10 ^ d / d))).length) '0' ++
              natToChars (a * (10 ^ d / d))).length - d) ++
        '.' :: (List.replicate (d + 1 - (natToChars (a * (10 ^ d / d))).length) '0' ++
          natToChars (a * (10 ^ d / d))).drop
            ((List.replicate (d + 1 - (natToChars (a * (10 ^ d / d))).length) '0' ++
              natToChars (a * (10 ^ d / d))).length - d) := by
      unfold formatAbsChars
      rw [if_neg hd]
    set ds := natToChars (a * (10 ^ d / d)) with hds
    set P := List.replicate (d + 1 - ds.length) '0' ++ ds with hP
    set I := P.take (P.length - d) with hI
    set F := P.drop (P.length - d) with hF
    have hPdig : ∀ c ∈ P, c.isDigit = true := by
      intro c hc
      rcases List.mem_append.mp hc with hc | hc
      · rw [List.eq_of_mem_replicate hc]; decide
      · exact (natToChars_spec _).2.1 c hc
    have hds_ne : ds ≠ [] := (natToChars_spec _).1
    have hlen : d + 1 ≤ P.length := by
      rw [hP, List.length_append, List.length_replicate]
      have : 1 ≤ ds.length := List.length_pos.mpr hds_ne
      omega
    have hIdig : ∀ c ∈ I, c.isDigit = true := fun c hc => hPdig c (List.take_subset _ _ hc)
    have hFdig : ∀ c ∈ F, c.isDigit = true := fun c hc => hPdig c (List.drop_subset _ _ hc)
    have hIF : I ++ F = P := List.take_append_drop _ _
    have hFlen : F.length = d := by
      rw [hF, List.length_drop]
      omega
    have hI_ne : I ≠ [] := by
      rw [hI, ← List.length_pos, List.length_take]
      omega
    have hsplit : splitAtCh (· == '.') (I ++ '.' :: F) = (I, some F) :=
      splitAtCh_found _ _ _ _ (fun c hc => isDigit_not_dot (hIdig c hc)) (by decide)
    rw [hform]
    unfold parseMantissa
    rw [hsplit]
    simp only
    rw [if_neg (by simp [hI_ne]), if_pos (by
      rw [List.all_eq_true.mpr hIdig, List.all_eq_true.mpr hFdig]; rfl)]
    congr 1
    have hval : charsNatVal I * 10 ^ d + charsNatVal F = a * (10 ^ d / d) := by
      have h1 : charsNatVal (I ++ F) = charsNatVal I * 10 ^ F.length + charsNatVal F :=
        charsNatVal_append I F
      rw [hIF, hFlen] at h1
      rw [← h1, hP, charsNatVal_replicate_zero, hds]
      exact (natToChars_spec _).2.2
    have ht : 10 ^ d / d * d = 10 ^ d := Nat.div_mul_cancel hdvd
    have hvalQ : (charsNatVal I : Rat) * 10 ^ d + (charsNatVal F : Rat) =
        (a : Rat) * ((10 ^ d / d : Nat) : Rat) := by
      exact_mod_cast congrArg (fun n : Nat => (n : Rat)) hval
    have htQ : (((10 : Nat) ^ d / d : Nat) : Rat) * (d : Rat) = (10 : Rat) ^ d := by
      exact_mod_cast congrArg (fun n : Nat => (n : Rat)) ht
    have hdQ : (d : Rat) ≠ 0 := Nat.cast_ne_zero.mpr (by omega)
    have h10Q : ((10 : Rat)) ^ d ≠ 0 := pow_ne_zero _ (by norm_num)
    rw [hFlen]
    field_simp
    linear_combination (d : Rat) * hvalQ + (a : Rat) * htQ

theorem dvd_ten_pow_self (d : Nat) (hd0 : 0 < d) (h : ∃ j, d ∣ 10 ^ j) :
    d ∣ 10 ^ d := by
  induction d using Nat.strong_induction_on with
  | _ d ih =>
      obtain ⟨j, hj⟩ := h
      by_cases hd1 : d = 1
      · subst hd1; exact one_dvd _
      · have hp : d.minFac.Prime := Nat.minFac_prime hd1
        have hpd : d.minFac ∣ d := Nat.minFac_dvd d
        have hp10 : d.minFac ∣ 10 := hp.dvd_of_dvd_pow (hpd.trans hj)
        have hp2 : 2 ≤ d.minFac := hp.two_le
        have he : d.minFac * (d / d.minFac) = d := Nat.mul_div_cancel' hpd
        have he0 : 0 < d / d.minFac := Nat.div_pos (Nat.minFac_le hd0) (by omega)
        have helt : d / d.minFac < d := Nat.div_lt_self hd0 (by omega)
        have hed : d / d.minFac ∣ d := Dvd.intro_left _ he
        have hih : d / d.minFac ∣ 10 ^ (d / d.minFac) :=
          ih _ helt he0 ⟨j, hed.trans hj⟩
        have hdd : d.minFac * (d / d.minFac) ∣ 10 * 10 ^ (d / d.minFac) :=
          mul_dvd_mul hp10 hih
        rw [he] at hdd
        refine hdd.trans ?_
        rw [← pow_succ']
        exact pow_dvd_pow 10 (by omega)

theorem stripSign_neg (l : List Char) : stripSign ('-' :: l) = (true, l) := by
  show (if '-' = '-' then (true, l)
        else if '-' = '+' then (false, l) else (false, '-' :: l)) = (true, l)
  rw [if_pos rfl]

theorem stripSign_digit {c : Char} (h : c.isDigit = true) (l : List Char) :
    stripSign (c :: l) = (false, c :: l) := by
  show (if c = '-' then (true, l)
        else if c = '+' then (false, l) else (false, c :: l)) = (false, c :: l)
  rw [if_neg (isDigit_not_minus h), if_neg (isDigit_not_plus h)]

theorem splitExp_formatAbs (a d : Nat) :
    splitAtCh isExpMark (formatAbsChars a d) = (formatAbsChars a d, none) := by
  refine splitAtCh_not_found _ _ (fun c hc => ?_)
  rcases formatAbs_mem a d c hc with h | h
  · exact isDigit_not_expMark h
  · subst h; decide

theorem parseRat_formatRat (q : Rat) (h : q.den ∣ 10 ^ q.den) :
    parseRatChars (formatRatChars q) = some q := by
  have hd0 : 0 < q.den := q.pos
  have hM : parseMantissa (formatAbsChars q.num.natAbs q.den) =
      some ((q.num.natAbs : Rat) / (q.den : Rat)) :=
    parseMantissa_formatAbs _ _ hd0 h
  obtain ⟨c, r, hcr, hcd⟩ := formatAbs_head q.num.natAbs q.den
  by_cases hneg : q.num < 0
  · have hform : formatRatChars q = '-' :: formatAbsChars q.num.natAbs q.den := by
      unfold formatRatChars
      rw [if_pos hneg]
    unfold parseRatChars
    rw [hform, stripSign_neg]
    simp only [splitExp_formatAbs, hM]
    congr 1
    have ha : ((q.num.natAbs : Nat) : Rat) = -((q.num : Rat)) := by
      rw [Int.cast_natAbs, abs_of_neg hneg]
      push_cast
      ring
    unfold applySign
    rw [if_pos rfl, ha, neg_div, neg_neg, Rat.num_div_den]
  · have hform : formatRatChars q = formatAbsChars q.num.natAbs q.den := by
      unfold formatRatChars
      rw [if_neg hneg]
    unfold parseRatChars
    rw [hform, hcr, stripSign_digit hcd, ← hcr]
    simp only [splitExp_formatAbs, hM]
    congr 1
    have ha : ((q.num.natAbs : Nat) : Rat) = ((q.num : Rat)) := by
      rw [Int.cast_natAbs, abs_of_nonneg (not_lt.mp hneg)]
    unfold applySign
    rw [if_neg (by simp), ha, Rat.num_div_den]

/-- Round trip of the value codec on the finite-float model: printing a
finite value and parsing it back is the identity. -/
theorem parseF32_formatF32 (q : Rat) (h : FiniteF32 q) :
    parseF32 (formatF32 q) = some q := by
  unfold parseF32 formatF32
  exact parseRat_formatRat q (dvd_ten_pow_self q.den q.pos h)

/-! ## Decoder-level lemmas -/

theorem formatRatChars_ne_nil (q : Rat) : formatRatChars q ≠ [] := by
  unfold formatRatChars
  obtain ⟨c, r, hcr, -⟩ := formatAbs_head q.num.natAbs q.den
  by_cases h : q.num < 0
  · rw [if_pos h]; simp
  · rw [if_neg h, hcr]; simp

/-- One unfolding step of the visitor: the head entry fully determines the
result. -/
theorem visit_map_cons (key : String) (tom : TextOrMap)
    (rest : List (String × TextOrMap)) :
    visit_map ((key, tom) :: rest) =
      match parseF32 (tomText tom) with
      | none => .error (.invalidNumber (tomText tom))
      | some f =>
          if key = "Euros" then .ok (.Euros f)
          else if key = "Dollars" then .ok (.Dollars f)
          else .error (.unexpectedKey key) := rfl

theorem visit_map_nil : visit_map [] = .error .missingVariantTag := rfl

theorem parse_sale_empty : parse_sale_or_empty_string "" = .ok none := rfl

theorem parse_sale_formatted (x : Rat) (h : FiniteF32 x) :
    parse_sale_or_empty_string (formatF32 x) = .ok (some (Sale.mk x)) := by
  unfold parse_sale_or_empty_string
  have hdata : (formatF32 x).data = formatRatChars x := rfl
  obtain ⟨c, r, hcr⟩ := List.exists_cons_of_ne_nil (formatRatChars_ne_nil x)
  rw [if_neg (by rw [hdata, hcr]; simp)]
  rw [parseF32_formatF32 x h]

/-! ## Claims -/

/-- C1: for every product value (price payload finite, and sale payload
finite when present), decoding the document produced by encoding it yields
a structurally equal product. -/
theorem product_roundtrip (p : Product)
    (hp : FiniteF32 (currencyValue p.price))
    (hs : ∀ s, p.sale = some s → FiniteF32 s.val) :
    from_xml_doc (to_xml_doc p) = Except.ok p := by
  obtain ⟨name, price, sale⟩ := p
  have hp' : FiniteF32 (currencyValue price) := hp
  have hvm : visit_map [(currencyTag price, TextOrMap.Text (formatF32 (currencyValue price)))]
      = Except.ok price := by
    rw [visit_map_cons]
    simp only [tomText]
    rw [parseF32_formatF32 _ hp']
    cases price with
    | Dollars v => simp [currencyTag, currencyValue]
    | Euros v => simp [currencyTag, currencyValue]
  cases sale with
  | none =>
      have hstep : from_xml_doc (to_xml_doc ⟨name, price, none⟩) =
          match visit_map
              [(currencyTag price, TextOrMap.Text (formatF32 (currencyValue price)))] with
          | .error e => .error e
          | .ok pr => .ok ⟨name, pr, none⟩ := rfl
      rw [hstep, hvm]
  | some s =>
      obtain ⟨x⟩ := s
      have hps : parse_sale_or_empty_string (formatF32 x) = .ok (some (Sale.mk x)) :=
        parse_sale_formatted x (hs (Sale.mk x) rfl)
      have hstep : from_xml_doc (to_xml_doc ⟨name, price, some (Sale.mk x)⟩) =
          match visit_map
              [(currencyTag price, TextOrMap.Text (formatF32 (currencyValue price)))] with
          | .error e => .error e
          | .ok pr =>
              match parse_sale_or_empty_string (formatF32 x) with
              | .error e => .error e
              | .ok sl => .ok ⟨name, pr, sl⟩ := rfl
      rw [hstep, hvm, hps]

/-- C1 witness: a concrete round trip. -/
theorem product_roundtrip_witness :
    from_xml_doc (to_xml_doc ⟨"Scrub Daddy", Currency.Dollars 6, some (Sale.mk 7)⟩)
      = Except.ok ⟨"Scrub Daddy", Currency.Dollars 6, some (Sale.mk 7)⟩ :=
  product_roundtrip _ ⟨0, by decide⟩
    (fun s hs => by cases Option.some.inj hs; exact ⟨0, by decide⟩)

/-- C2 counterexample: with first child `<Wattage>9.0</Wattage>` followed by
the recognized `<Euros>1.0</Euros>`, the decoder does not skip to the
recognized key — it fails on the first key instead of returning `Euros 1`. -/
theorem first_match_skip_counterexample :
    visit_map [("Wattage", TextOrMap.Text "9.0"), ("Euros", TextOrMap.Text "1.0")]
        = Except.error (DecodeError.unexpectedKey "Wattage") ∧
    visit_map [("Wattage", TextOrMap.Text "9.0"), ("Euros", TextOrMap.Text "1.0")]
        ≠ Except.ok (Currency.Euros 1) := by
  refine ⟨rfl, fun h => ?_⟩
  rw [show visit_map [("Wattage", TextOrMap.Text "9.0"), ("Euros", TextOrMap.Text "1.0")]
      = Except.error (DecodeError.unexpectedKey "Wattage") from rfl] at h
  exact Except.noConfusion h

/-- C2 (amended): the decoder examines only the first entry — entries after
it are never examined; if the first entry's text parses and its key is a
registry tag the matching variant is returned immediately, and a first key
matching no tag is an error, not skipped. -/
theorem visit_map_first_entry_policy (key : String) (tom : TextOrMap)
    (rest : List (String × TextOrMap)) :
    visit_map ((key, tom) :: rest) = visit_map [(key, tom)] ∧
    (∀ f, parseF32 (tomText tom) = some f →
      (key = "Euros" → visit_map ((key, tom) :: rest) = Except.ok (Currency.Euros f)) ∧
      (key = "Dollars" → visit_map ((key, tom) :: rest) = Except.ok (Currency.Dollars f)) ∧
      (key ≠ "Euros" → key ≠ "Dollars" →
        visit_map ((key, tom) :: rest) = Except.error (DecodeError.unexpectedKey key))) := by
  refine ⟨rfl, fun f hf => ⟨?_, ?_, ?_⟩⟩
  · intro h1; subst h1; rw [visit_map_cons, hf]; simp
  · intro h2; subst h2; rw [visit_map_cons, hf]; simp
  · intro h1 h2; rw [visit_map_cons, hf]; simp [h1, h2]

/-- C2 witness: the first entry is recognized and decoded; the second entry
is ignored. -/
theorem visit_map_first_entry_policy_witness :
    visit_map [("Euros", TextOrMap.Text "1.5"), ("Dollars", TextOrMap.Text "2")]
      = Except.ok (Currency.Euros (3 / 2)) := by
  have hf : parseF32 "1.5" = some (3 / 2) := by
    have h0 : parseF32 "1.5" = some ((1 : Rat) + (5 : Rat) / (10 : Rat) ^ (1 : Nat)) := rfl
    rw [h0]; norm_num
  exact ((visit_map_first_entry_policy "Euros" (TextOrMap.Text "1.5")
    [("Dollars", TextOrMap.Text "2")]).2 (3 / 2) hf).1 rfl

/-- C3 counterexample: a sole unknown child `<Wattage>9.0</Wattage>` fails
with the unexpected-key error, not `MissingVariantTag`, and when the same
unknown child's text does not parse the error changes to the number-parse
error — so the error is not independent of parseability. -/
theorem unknown_tag_counterexample :
    visit_map [("Wattage", TextOrMap.Text "9.0")]
        = Except.error (DecodeError.unexpectedKey "Wattage") ∧
    DecodeError.unexpectedKey "Wattage" ≠ DecodeError.missingVariantTag ∧
    visit_map [("Wattage", TextOrMap.Text "true")]
        = Except.error (DecodeError.invalidNumber "true") :=
  ⟨rfl, fun h => DecodeError.noConfusion h, rfl⟩

/-- C3 (amended): a union element whose only child's name is not in the
registry fails with the unexpected-key error carrying that name when the
child's text parses as a number, and with the number-parse error when it
does not; `MissingVariantTag` is reserved for an element with no children. -/
theorem unknown_tag_error (key : String) (tom : TextOrMap)
    (h1 : key ≠ "Euros") (h2 : key ≠ "Dollars") :
    (∀ f, parseF32 (tomText tom) = some f →
        visit_map [(key, tom)] = Except.error (DecodeError.unexpectedKey key)) ∧
    (parseF32 (tomText tom) = none →
        visit_map [(key, tom)] = Except.error (DecodeError.invalidNumber (tomText tom))) := by
  constructor
  · intro f hf; rw [visit_map_cons, hf]; simp [h1, h2]
  · intro hf; rw [visit_map_cons, hf]

/-- C3 witness: concrete unknown-tag decodes. -/
theorem unknown_tag_error_witness :
    visit_map [("Wattage", TextOrMap.Text "9")]
        = Except.error (DecodeError.unexpectedKey "Wattage") ∧
    visit_map [("Wattage", TextOrMap.Text "x")]
        = Except.error (DecodeError.invalidNumber "x") :=
  ⟨(unknown_tag_error "Wattage" (TextOrMap.Text "9")
      (by decide) (by decide)).1 9 rfl,
   (unknown_tag_error "Wattage" (TextOrMap.Text "x")
      (by decide) (by decide)).2 rfl⟩

/-- C4: a bare-text child and a text-content-wrapper child carrying the same
string decode identically, both at the union decoder and for the whole
document. -/
theorem dual_leaf_equivalence (key s : String) (rest : List (String × TextOrMap))
    (n st : String) :
    visit_map ((key, TextOrMap.Text s) :: rest)
        = visit_map ((key, TextOrMap.Map s) :: rest) ∧
    from_xml_doc ⟨n, (key, TextOrMap.Text s) :: rest, st⟩
        = from_xml_doc ⟨n, (key, TextOrMap.Map s) :: rest, st⟩ :=
  ⟨rfl, rfl⟩

/-- C5: the optional-field decoder maps empty raw text to absence, parseable
non-empty text to presence with the parsed value, and unparseable non-empty
text to the number-parse error. -/
theorem optional_field_decode (s : String) :
    (s = "" → parse_sale_or_empty_string s = Except.ok none) ∧
    (∀ f, parseF32 s = some f → s ≠ "" →
        parse_sale_or_empty_string s = Except.ok (some (Sale.mk f))) ∧
    (parseF32 s = none → s ≠ "" →
        parse_sale_or_empty_string s = Except.error (DecodeError.invalidSaleNumber s)) := by
  refine ⟨fun h => by subst h; rfl, ?_, ?_⟩
  · intro f hf hne
    obtain ⟨l⟩ := s
    cases l with
    | nil => exact absurd rfl hne
    | cons c r =>
        unfold parse_sale_or_empty_string
        rw [if_neg (by simp : ¬((String.mk (c :: r)).data.isEmpty = true)), hf]
  · intro hf hne
    obtain ⟨l⟩ := s
    cases l with
    | nil => exact absurd rfl hne
    | cons c r =>
        unfold parse_sale_or_empty_string
        rw [if_neg (by simp : ¬((String.mk (c :: r)).data.isEmpty = true)), hf]

/-- C5 witness: concrete optional-field decodes. -/
theorem optional_field_decode_witness :
    parse_sale_or_empty_string "" = Except.ok none ∧
    parse_sale_or_empty_string "25.5" = Except.ok (some (Sale.mk (51 / 2))) ∧
    parse_sale_or_empty_string "abc"
        = Except.error (DecodeError.invalidSaleNumber "abc") := by
  have hf : parseF32 "25.5" = some (51 / 2) := by
    have h0 : parseF32 "25.5" = some ((25 : Rat) + (5 : Rat) / (10 : Rat) ^ (1 : Nat)) := rfl
    rw [h0]; norm_num
  exact ⟨(optional_field_decode "").1 rfl,
    (optional_field_decode "25.5").2.1 (51 / 2) hf (by decide),
    (optional_field_decode "abc").2.2 rfl (by decide)⟩

/-- C6: the encoder emits exactly one union child; its name is the active
variant's tag (`"Dollars"` / `"Euros"`), its content is the formatted
payload as bare text, and it is never the text-content wrapper form. -/
theorem encoder_single_bare_child (p : Product) :
    (to_xml_doc p).unionChildren.length = 1 ∧
    ∀ kv ∈ (to_xml_doc p).unionChildren,
      kv.1 = currencyTag p.price ∧
      kv.2 = TextOrMap.Text (formatF32 (currencyValue p.price)) ∧
      (∀ t, kv.2 ≠ TextOrMap.Map t) ∧
      ((∃ v, p.price = Currency.Dollars v) → kv.1 = "Dollars") ∧
      ((∃ v, p.price = Currency.Euros v) → kv.1 = "Euros") := by
  refine ⟨rfl, fun kv hkv => ?_⟩
  have hkv' : kv = serializeCurrency p.price := by
    simpa [to_xml_doc] using hkv
  subst hkv'
  refine ⟨rfl, rfl, fun t h => TextOrMap.noConfusion h, ?_, ?_⟩
  · rintro ⟨v, hv⟩; rw [hv]; rfl
  · rintro ⟨v, hv⟩; rw [hv]; rfl

/-- C6 witness: the single emitted child of a concrete product. -/
theorem encoder_single_bare_child_witness :
    (("Euros", TextOrMap.Text (formatF32 2)) : String × TextOrMap).1 = "Euros" ∧
    (∀ t, (TextOrMap.Text (formatF32 2) : TextOrMap) ≠ TextOrMap.Map t) := by
  have h := (encoder_single_bare_child ⟨"Lamp", Currency.Euros 2, none⟩).2
      ("Euros", TextOrMap.Text (formatF32 2)) (List.mem_singleton.mpr rfl)
  exact ⟨h.2.2.2.2 ⟨2, rfl⟩, h.2.2.1⟩

/-- C8 counterexample: the code has no `Voltage` variant; decoding a
`<Voltage>2.0</Voltage>` union child (bare or wrapped) is an unexpected-key
error, not a successful `Voltage(2.0)`. -/
theorem no_voltage_variant_counterexample :
    visit_map [("Voltage", TextOrMap.Text "2.0")]
        = Except.error (DecodeError.unexpectedKey "Voltage") ∧
    visit_map [("Voltage", TextOrMap.Map "2.0")]
        = Except.error (DecodeError.unexpectedKey "Voltage") :=
  ⟨rfl, rfl⟩

/-- C8 (amended): the record type the system provides is the product record
`{ name, price : Currency, sale }` whose union has exactly the variants
`Dollars(f32)` and `Euros(f32)`; decoding a `<Dollars>2.0</Dollars>` union
child, bare or wrapped, yields `Dollars(2.0)`. -/
theorem product_union_variants :
    visit_map [("Dollars", TextOrMap.Text "2.0")] = Except.ok (Currency.Dollars 2) ∧
    visit_map [("Dollars", TextOrMap.Map "2.0")] = Except.ok (Currency.Dollars 2) ∧
    ∀ c : Currency, (∃ v, c = Currency.Dollars v) ∨ (∃ v, c = Currency.Euros v) := by
  have hf : parseF32 "2.0" = some 2 := by
    have h0 : parseF32 "2.0" = some ((2 : Rat) + (0 : Rat) / (10 : Rat) ^ (1 : Nat)) := rfl
    rw [h0]; norm_num
  refine ⟨?_, ?_, ?_⟩
  · rw [visit_map_cons]; simp only [tomText]; rw [hf]; simp
  · rw [visit_map_cons]; simp only [tomText]; rw [hf]; simp
  · intro c
    cases c with
    | Dollars v => exact Or.inl ⟨v, rfl⟩
    | Euros v => exact Or.inr ⟨v, rfl⟩

/-- C9: the float parse of the first entry's text happens before the key is
compared: whenever the first entry's text fails to parse, the decoder fails
with the number-parse error, whatever the key is. -/
theorem parse_before_key_check (key : String) (tom : TextOrMap)
    (rest : List (String × TextOrMap))
    (h : parseF32 (tomText tom) = none) :
    visit_map ((key, tom) :: rest) = Except.error (DecodeError.invalidNumber (tomText tom)) := by
  rw [visit_map_cons, h]

/-- C9 witness: an unparseable first entry under an unrecognized key fails
with the number-parse error, not the unexpected-key error. -/
theorem parse_before_key_check_witness :
    visit_map [("Sideways", TextOrMap.Text "oops")]
      = Except.error (DecodeError.invalidNumber "oops") :=
  parse_before_key_check "Sideways" (TextOrMap.Text "oops") [] rfl

/-- C10: the no-recognized-child error is produced exactly for an empty
child mapping, and with at least one entry the result is determined
entirely by the first entry. -/
theorem missing_tag_iff_empty (l : List (String × TextOrMap)) :
    (visit_map l = Except.error DecodeError.missingVariantTag ↔ l = []) ∧
    (∀ e rest, l = e :: rest → visit_map l = visit_map [e]) := by
  constructor
  · constructor
    · intro h
      cases l with
      | nil => rfl
      | cons e rest =>
          exfalso
          obtain ⟨key, tom⟩ := e
          rw [visit_map_cons] at h
          cases hp : parseF32 (tomText tom) with
          | none => rw [hp] at h; simp at h
          | some f =>
              rw [hp] at h
              by_cases h1 : key = "Euros"
              · simp [h1] at h
              · by_cases h2 : key = "Dollars"
                · simp [h1, h2] at h
                · simp [h1, h2] at h
    · intro h; subst h; rfl
  · intro e rest h
    subst h
    obtain ⟨key, tom⟩ := e
    rfl

/-- C10 witness: a two-entry mapping decodes exactly as its first entry
alone does. -/
theorem missing_tag_iff_empty_witness :
    visit_map [("Dollars", TextOrMap.Text "1.0"), ("Euros", TextOrMap.Text "2.0")]
      = visit_map [("Dollars", TextOrMap.Text "1.0")] :=
  (missing_tag_iff_empty
    [("Dollars", TextOrMap.Text "1.0"), ("Euros", TextOrMap.Text "2.0")]).2
    ("Dollars", TextOrMap.Text "1.0") [("Euros", TextOrMap.Text "2.0")] rfl

/-- C7: for every finite value (modelled as an exact decimal rational, the
embedding's model of finite `f32`), parsing the text produced by formatting
it yields exactly that value: `parse_leaf(format_leaf(x)) = x`. -/
theorem value_codec_roundtrip (x : Rat) (h : FiniteF32 x) :
    parseF32 (formatF32 x) = some x :=
  parseF32_formatF32 x h

/-- C7 witness: a concrete format-then-parse round trip. -/
theorem value_codec_roundtrip_witness :
    parseF32 (formatF32 6) = some 6 :=
  value_codec_roundtrip 6 ⟨0, by decide⟩
